import Mathlib

/-!
Verification of the memoization notebook `7-fib-memoize.ipynb`.

The notebook contains:
* `fib_what` — the recursive ("what") Fibonacci definition;
* `fib_how` — the iterative ("how") Fibonacci implementation;
* a manually cached `fib` using a module-level dictionary `cache`;
* a memoized `fib` built with `toolz.memoize(fib, cache)`, also usable
  as a decorator.

The caches are embedded as association lists, mutation as explicit state
passing, and Python exceptions as `Option` (a raising function returns
`none`).  Invocation counts of the wrapped function are threaded
explicitly so that the "instrumented inner function" properties of the
spec can be stated.
-/

namespace Memo

/-- Dictionary lookup, `key in cache` / `cache[key]` in the source. -/
def clookup {κ ν : Type} [DecidableEq κ] : List (κ × ν) → κ → Option ν
  | [], _ => none
  | (k, v) :: t, k' => if k = k' then some v else clookup t k'

/-- Dictionary store, `cache[key] = value` in the source.  The wrapper only
stores keys that are absent, so prepending is faithful. -/
def cinsert {κ ν : Type} (c : List (κ × ν)) (k : κ) (v : ν) : List (κ × ν) :=
  (k, v) :: c

/-- The keys currently present in a cache. -/
def ckeys {κ ν : Type} (c : List (κ × ν)) : List κ := c.map Prod.fst

@[simp] theorem clookup_nil {κ ν : Type} [DecidableEq κ] (k : κ) :
    clookup ([] : List (κ × ν)) k = none := rfl

@[simp] theorem clookup_cons {κ ν : Type} [DecidableEq κ] (k k' : κ) (v : ν)
    (t : List (κ × ν)) :
    clookup ((k, v) :: t) k' = if k = k' then some v else clookup t k' := rfl

theorem clookup_eq_none_iff {κ ν : Type} [DecidableEq κ] (c : List (κ × ν)) (k : κ) :
    clookup c k = none ↔ k ∉ ckeys c := by
  induction c with
  | nil => simp [ckeys]
  | cons p t ih =>
    obtain ⟨k', v⟩ := p
    by_cases h : k' = k
    · subst h; simp [ckeys, clookup]
    · simp only [ckeys, List.map_cons, List.mem_cons, clookup, if_neg h] at ih ⊢
      constructor
      · intro hn hmem
        rcases hmem with hmem | hmem
        · exact h hmem.symm
        · exact (ih.mp hn) hmem
      · intro hn; exact ih.mpr fun hmem => hn (Or.inr hmem)

/-! ### The two Fibonacci implementations (cells 2 and 4) -/

/-- `fib_what`, the recursive definition from the notebook:
`0` at `0`, `1` at `1`, otherwise `fib_what (i-1) + fib_what (i-2)`. -/
def fib_what : Nat → Nat
  | 0 => 0
  | 1 => 1
  | n + 2 => fib_what (n + 1) + fib_what n

/-- The body of `fib_how`'s loop: `for _ in range(i): a, b = b, a + b`,
iterated on the pair `(a, b)`. -/
def fibHowLoop : Nat → Nat × Nat → Nat × Nat
  | 0, p => p
  | n + 1, (a, b) => fibHowLoop n (b, a + b)

/-- `fib_how`, the iterative implementation: start from `a, b = 0, 1`,
run the loop `i` times, return `a`. -/
def fib_how (i : Nat) : Nat := (fibHowLoop i (0, 1)).1

/-! ### The manually cached `fib` (cell 10)

The Python function reads and writes a module-level `cache` dictionary; we
thread that dictionary explicitly.  Note the base cases `0` and `1` return
without writing to the cache. -/

/-- The manually cached `fib` of the notebook.  Returns the result together
with the updated module-level cache. -/
def fibCached (i : Nat) (c : List (Nat × Nat)) : Nat × List (Nat × Nat) :=
  match clookup c i with
  | some v => (v, c)
  | none =>
    match i with
    | 0 => (0, c)
    | 1 => (1, c)
    | n + 2 =>
      let r1 := fibCached (n + 1) c
      let r2 := fibCached n r1.2
      let result := r1.1 + r2.1
      (result, cinsert r2.2 (n + 2) result)

/-- A sequence of calls to the manually cached `fib`, threading the
module-level cache; returns the list of results and the final cache. -/
def fibCachedCalls : List Nat → List (Nat × Nat) → List Nat × List (Nat × Nat)
  | [], c => ([], c)
  | i :: is, c =>
    let r := fibCached i c
    let rest := fibCachedCalls is r.2
    (r.1 :: rest.1, rest.2)

/-! ### The `toolz.memoize` wrapper

`toolz` is an external library: its source is not part of this repository,
only the call sites `memoize(fib, cache)` and the decorator form are.  The
wrapper itself is therefore modelled from the spec. -/

/-- Modelled from the spec: the missing `toolz.memoize` wrapper body.  One
call of the wrapped `g` on argument `x` with cache `c`: compute the cache
key (for a single positional argument, the argument value itself); on a hit
return the stored result without invoking `f`; on a miss invoke
`f x` — if it succeeds, store the result under the key and return it, and
if `f` raises (`none`) propagate the failure and leave the cache
unmodified.  The third component counts invocations of the wrapped `f`
during this call. -/
def memoizeCall {α β : Type} [DecidableEq α] (f : α → Option β)
    (c : List (α × β)) (x : α) : Option β × List (α × β) × Nat :=
  match clookup c x with
  | some v => (some v, c, 0)
  | none =>
    match f x with
    | some v => (some v, cinsert c x v, 1)
    | none => (none, c, 1)

/-- A sequence of calls of a memoized wrapper, threading the cache and
summing the invocation counts of the wrapped function. -/
def memoizeCalls {α β : Type} [DecidableEq α] (f : α → Option β) :
    List α → List (α × β) → List (α × β) × Nat
  | [], c => (c, 0)
  | x :: xs, c =>
    let r := memoizeCall f c x
    let rest := memoizeCalls f xs r.2.1
    (rest.1, r.2.2 + rest.2)

/-! ### The memoized recursive `fib` (cell 13)

In the notebook the recursive `fib` is rebound: `fib = memoize(fib, cache)`,
so the recursive calls inside the body are resolved at call time and go
through the wrapper.  We inline the wrapper (modelled from the spec, as
above) around the recursive body: a hit returns the stored value with no
invocation of the body; a miss invokes the body once — the body itself
recurses through the wrapper — and stores the result under the key `i`
(here, unlike the manual cache, base cases are stored too).  The third
component counts invocations of the unwrapped recursive body. -/

/-- Modelled from the spec (the `toolz.memoize` part): the notebook's
`fib = memoize(fib, cache)` where `fib` is the recursive body of cell 13. -/
def memoFib (i : Nat) (c : List (Nat × Nat)) : Nat × List (Nat × Nat) × Nat :=
  match clookup c i with
  | some v => (v, c, 0)
  | none =>
    match i with
    | 0 => (0, cinsert c 0 0, 1)
    | 1 => (1, cinsert c 1 1, 1)
    | n + 2 =>
      let r1 := memoFib (n + 1) c
      let r2 := memoFib n r1.2.1
      let v := r1.1 + r2.1
      (v, cinsert r2.2.1 (n + 2) v, 1 + r1.2.2 + r2.2.2)

/-- Modelled from the spec (the `toolz.memoize` part): the decorator form of
cell 14, `@memoize def fib(i): ...` — the same wrapper applied to the same
recursive body at definition time instead of at the call site. -/
def memoFibDec (i : Nat) (c : List (Nat × Nat)) : Nat × List (Nat × Nat) × Nat :=
  match clookup c i with
  | some v => (v, c, 0)
  | none =>
    match i with
    | 0 => (0, cinsert c 0 0, 1)
    | 1 => (1, cinsert c 1 1, 1)
    | n + 2 =>
      let r1 := memoFibDec (n + 1) c
      let r2 := memoFibDec n r1.2.1
      let v := r1.1 + r2.1
      (v, cinsert r2.2.1 (n + 2) v, 1 + r1.2.2 + r2.2.2)

/-! ### Cache keys for positional and keyword arguments

The spec requires the key to be derived from all positional and keyword
arguments, with keyword arguments compared by name/value pairs rather than
insertion order (normalized by sorting on name).  Argument values are
modelled as natural numbers. -/

/-- Order on keyword-argument pairs: by name, ties broken by value (so the
order is antisymmetric). -/
def kwLe (p q : String × Nat) : Prop :=
  p.1 < q.1 ∨ (p.1 = q.1 ∧ p.2 ≤ q.2)

instance : DecidableRel kwLe := fun p q => by
  unfold kwLe; infer_instance

/-- Modelled from the spec: the cache key of a call — the tuple of
positional argument values paired with the keyword arguments normalized by
sorting on name. -/
def makeKey (args : List Nat) (kwargs : List (String × Nat)) :
    List Nat × List (String × Nat) :=
  (args, List.insertionSort kwLe kwargs)

/-- Modelled from the spec: one call of a memoized wrapper around a
function of positional and keyword arguments, caching under `makeKey`. -/
def memoizeCallKW (f : List Nat → List (String × Nat) → Nat)
    (c : List ((List Nat × List (String × Nat)) × Nat))
    (args : List Nat) (kwargs : List (String × Nat)) :
    Nat × List ((List Nat × List (String × Nat)) × Nat) × Nat :=
  let k := makeKey args kwargs
  match clookup c k with
  | some v => (v, c, 0)
  | none => (f args kwargs, cinsert c k (f args kwargs), 1)

/-! ### Basic lemmas about one wrapper call -/

theorem clookup_cinsert_self {κ ν : Type} [DecidableEq κ]
    (c : List (κ × ν)) (k : κ) (v : ν) :
    clookup (cinsert c k v) k = some v := by
  simp [cinsert]

theorem clookup_cinsert_ne {κ ν : Type} [DecidableEq κ]
    (c : List (κ × ν)) (k k' : κ) (v : ν) (h : k ≠ k') :
    clookup (cinsert c k v) k' = clookup c k' := by
  simp [cinsert, h]

theorem memoizeCall_hit {α β : Type} [DecidableEq α] (f : α → Option β)
    (c : List (α × β)) (x : α) (v : β) (h : clookup c x = some v) :
    memoizeCall f c x = (some v, c, 0) := by
  simp [memoizeCall, h]

theorem memoizeCall_miss_some {α β : Type} [DecidableEq α] (f : α → Option β)
    (c : List (α × β)) (x : α) (v : β)
    (h : clookup c x = none) (hf : f x = some v) :
    memoizeCall f c x = (some v, cinsert c x v, 1) := by
  simp [memoizeCall, h, hf]

theorem memoizeCall_miss_none {α β : Type} [DecidableEq α] (f : α → Option β)
    (c : List (α × β)) (x : α)
    (h : clookup c x = none) (hf : f x = none) :
    memoizeCall f c x = (none, c, 1) := by
  simp [memoizeCall, h, hf]

theorem memoizeCalls_replicate_hit {α β : Type} [DecidableEq α]
    (f : α → Option β) (c : List (α × β)) (x : α) (v : β)
    (h : clookup c x = some v) (n : Nat) :
    memoizeCalls f (List.replicate n x) c = (c, 0) := by
  induction n with
  | zero => rfl
  | succ n ih =>
    simp only [List.replicate_succ, memoizeCalls, memoizeCall_hit f c x v h, ih]

/-- C1: Cache-hit contract — once a first call `g(x)` has populated the
cache, any number of repeated `g(x)` calls invoke the wrapped function
exactly once in total (the first call), and every later call returns the
stored result with zero further invocations of `f`. -/
theorem memoize_cache_hit_contract {α β : Type} [DecidableEq α]
    (f : α → Option β) (c : List (α × β)) (x : α) (v : β)
    (hmiss : clookup c x = none) (hf : f x = some v) (n : Nat) :
    memoizeCalls f (List.replicate (n + 1) x) c = (cinsert c x v, 1) ∧
    memoizeCall f (cinsert c x v) x = (some v, cinsert c x v, 0) := by
  constructor
  · simp only [List.replicate_succ, memoizeCalls,
      memoizeCall_miss_some f c x v hmiss hf,
      memoizeCalls_replicate_hit f (cinsert c x v) x v
        (clookup_cinsert_self c x v) n]
  · exact memoizeCall_hit f (cinsert c x v) x v (clookup_cinsert_self c x v)

/-- Witness for C1: the wrapped function `n ↦ n + 1` at argument `3`,
called three times from an empty cache. -/
theorem memoize_cache_hit_contract_witness :
    memoizeCalls (fun n : Nat => some (n + 1)) (List.replicate 3 3) [] =
      (cinsert [] 3 4, 1) ∧
    memoizeCall (fun n : Nat => some (n + 1)) (cinsert [] 3 4) 3 =
      (some 4, cinsert [] 3 4, 0) :=
  memoize_cache_hit_contract (fun n : Nat => some (n + 1)) [] 3 4 rfl rfl 2

/-- C2: Cache-miss contract — when the key is absent, the wrapper invokes
`f` (exactly once), stores the returned result under the key, and returns
it; afterwards the key is present in the cache. -/
theorem memoize_cache_miss_contract {α β : Type} [DecidableEq α]
    (f : α → Option β) (c : List (α × β)) (x : α) (v : β)
    (hmiss : clookup c x = none) (hf : f x = some v) :
    memoizeCall f c x = (some v, cinsert c x v, 1) ∧
    clookup (memoizeCall f c x).2.1 x = some v := by
  refine ⟨memoizeCall_miss_some f c x v hmiss hf, ?_⟩
  rw [memoizeCall_miss_some f c x v hmiss hf]
  exact clookup_cinsert_self c x v

/-- Witness for C2: the recursive Fibonacci body at the base-case input
`0`, from an empty cache — after the miss the key `0` is present. -/
theorem memoize_cache_miss_contract_witness :
    memoizeCall (fun n : Nat => some (fib_what n)) [] 0 =
      (some 0, cinsert [] 0 0, 1) ∧
    clookup (memoizeCall (fun n : Nat => some (fib_what n)) [] 0).2.1 0 =
      some 0 :=
  memoize_cache_miss_contract (fun n : Nat => some (fib_what n)) [] 0 0 rfl rfl

/-- C3: Failures are not cached — if `f` raises on `y`, the wrapper call
raises (propagates the failure), leaves the cache unmodified, and a later
call with the same argument re-invokes the wrapped function (so once the
function is fixed to succeed on `y`, the later call succeeds). -/
theorem memoize_failure_not_cached {α β : Type} [DecidableEq α]
    (f g : α → Option β) (c : List (α × β)) (y : α) (v : β)
    (hmiss : clookup c y = none) (hf : f y = none) (hg : g y = some v) :
    memoizeCall f c y = (none, c, 1) ∧
    memoizeCall g c y = (some v, cinsert c y v, 1) :=
  ⟨memoizeCall_miss_none f c y hmiss hf,
   memoizeCall_miss_some g c y v hmiss hg⟩

/-- Witness for C3: a function that raises on `5`, then a fixed version
that returns `25` there; the retry succeeds from the unpoisoned cache. -/
theorem memoize_failure_not_cached_witness :
    memoizeCall (fun _ : Nat => (none : Option Nat)) [] 5 = (none, [], 1) ∧
    memoizeCall (fun n : Nat => some (n * n)) [] 5 =
      (some 25, cinsert [] 5 25, 1) :=
  memoize_failure_not_cached (fun _ => none) (fun n => some (n * n)) [] 5 25
    rfl rfl rfl

/-- C8: External cache sharing — two wrappers built over the same function
and the same external cache share hits: after a call through the first
wrapper populates the entry for `x`, the call through the second wrapper
with the same argument is a hit and does not invoke the wrapped
function. -/
theorem memoize_shared_cache {α β : Type} [DecidableEq α]
    (f : α → Option β) (c : List (α × β)) (x : α) (v : β)
    (hmiss : clookup c x = none) (hf : f x = some v) :
    memoizeCall f (memoizeCall f c x).2.1 x =
      (some v, (memoizeCall f c x).2.1, 0) := by
  rw [memoizeCall_miss_some f c x v hmiss hf]
  exact memoizeCall_hit f (cinsert c x v) x v (clookup_cinsert_self c x v)

/-- Witness for C8: the function `n ↦ n + 10` at argument `7`, first call
through `g1` from an empty shared cache, second call through `g2`. -/
theorem memoize_shared_cache_witness :
    memoizeCall (fun n : Nat => some (n + 10))
        (memoizeCall (fun n : Nat => some (n + 10)) [] 7).2.1 7 =
      (some 17, (memoizeCall (fun n : Nat => some (n + 10)) [] 7).2.1, 0) :=
  memoize_shared_cache (fun n : Nat => some (n + 10)) [] 7 17 rfl rfl

/-! ### `fib_what` agrees with `fib_how` -/

theorem fib_what_add_two (n : Nat) :
    fib_what (n + 2) = fib_what (n + 1) + fib_what n := rfl

theorem fibHowLoop_fib (n : Nat) : ∀ k : Nat,
    fibHowLoop n (fib_what k, fib_what (k + 1)) =
      (fib_what (k + n), fib_what (k + n + 1)) := by
  induction n with
  | zero => intro k; simp [fibHowLoop]
  | succ n ih =>
    intro k
    have hsum : fib_what k + fib_what (k + 1) = fib_what (k + 2) := by
      rw [fib_what_add_two]; omega
    calc fibHowLoop (n + 1) (fib_what k, fib_what (k + 1))
        = fibHowLoop n (fib_what (k + 1), fib_what (k + 1 + 1)) := by
          simp only [fibHowLoop, hsum]
      _ = (fib_what (k + 1 + n), fib_what (k + 1 + n + 1)) := ih (k + 1)
      _ = (fib_what (k + (n + 1)), fib_what (k + (n + 1) + 1)) := by
          rw [Nat.add_right_comm k 1 n, Nat.add_assoc k n 1]

/-- C9: the recursive and iterative Fibonacci implementations agree — for
every natural number `i`, `fib_what i = fib_how i`; in particular both map
`0..10` to `[0, 1, 1, 2, 3, 5, 8, 13, 21, 34, 55]`. -/
theorem fib_what_eq_fib_how :
    (∀ i : Nat, fib_what i = fib_how i) ∧
    List.map fib_what (List.range 11) =
      [0, 1, 1, 2, 3, 5, 8, 13, 21, 34, 55] ∧
    List.map fib_how (List.range 11) =
      [0, 1, 1, 2, 3, 5, 8, 13, 21, 34, 55] := by
  refine ⟨fun i => ?_, by decide, by decide⟩
  have h := fibHowLoop_fib i 0
  simp only [Nat.zero_add] at h
  rw [fib_how]
  rw [show ((0 : Nat), (1 : Nat)) = (fib_what 0, fib_what 1) from rfl, h]

/-! ### Case lemmas for the two cached Fibonacci functions -/

theorem fibCached_hit (i : Nat) (c : List (Nat × Nat)) (v : Nat)
    (h : clookup c i = some v) : fibCached i c = (v, c) := by
  match i with
  | 0 => simp [fibCached, h]
  | 1 => simp [fibCached, h]
  | n + 2 => simp [fibCached, h]

theorem fibCached_base0 (c : List (Nat × Nat)) (h : clookup c 0 = none) :
    fibCached 0 c = (0, c) := by
  simp [fibCached, h]

theorem fibCached_base1 (c : List (Nat × Nat)) (h : clookup c 1 = none) :
    fibCached 1 c = (1, c) := by
  simp [fibCached, h]

theorem fibCached_rec (n : Nat) (c : List (Nat × Nat))
    (h : clookup c (n + 2) = none) :
    fibCached (n + 2) c =
      ((fibCached (n + 1) c).1 + (fibCached n (fibCached (n + 1) c).2).1,
        cinsert (fibCached n (fibCached (n + 1) c).2).2 (n + 2)
          ((fibCached (n + 1) c).1 + (fibCached n (fibCached (n + 1) c).2).1)) := by
  rw [fibCached]
  simp [h]

theorem memoFib_hit (i : Nat) (c : List (Nat × Nat)) (v : Nat)
    (h : clookup c i = some v) : memoFib i c = (v, c, 0) := by
  match i with
  | 0 => simp [memoFib, h]
  | 1 => simp [memoFib, h]
  | n + 2 => simp [memoFib, h]

theorem memoFib_base0 (c : List (Nat × Nat)) (h : clookup c 0 = none) :
    memoFib 0 c = (0, cinsert c 0 0, 1) := by
  simp [memoFib, h]

theorem memoFib_base1 (c : List (Nat × Nat)) (h : clookup c 1 = none) :
    memoFib 1 c = (1, cinsert c 1 1, 1) := by
  simp [memoFib, h]

theorem memoFib_rec (n : Nat) (c : List (Nat × Nat))
    (h : clookup c (n + 2) = none) :
    memoFib (n + 2) c =
      ((memoFib (n + 1) c).1 + (memoFib n (memoFib (n + 1) c).2.1).1,
        cinsert (memoFib n (memoFib (n + 1) c).2.1).2.1 (n + 2)
          ((memoFib (n + 1) c).1 + (memoFib n (memoFib (n + 1) c).2.1).1),
        1 + (memoFib (n + 1) c).2.2 + (memoFib n (memoFib (n + 1) c).2.1).2.2) := by
  rw [memoFib]
  simp [h]

/-! ### Monotonicity: no wrapper call ever removes or changes an entry -/

theorem memoizeCall_mono {α β : Type} [DecidableEq α] (f : α → Option β)
    (c : List (α × β)) (x k : α) (v : β) (h : clookup c k = some v) :
    clookup (memoizeCall f c x).2.1 k = some v := by
  cases hcl : clookup c x with
  | some w => rw [memoizeCall_hit f c x w hcl]; exact h
  | none =>
    cases hf : f x with
    | none => rw [memoizeCall_miss_none f c x hcl hf]; exact h
    | some w =>
      rw [memoizeCall_miss_some f c x w hcl hf]
      have hne : x ≠ k := by
        intro he; rw [he, h] at hcl; exact Option.noConfusion hcl
      rw [clookup_cinsert_ne c x k w hne]
      exact h

theorem memoizeCalls_mono {α β : Type} [DecidableEq α] (f : α → Option β)
    (xs : List α) : ∀ (c : List (α × β)) (k : α) (v : β),
    clookup c k = some v → clookup (memoizeCalls f xs c).1 k = some v := by
  induction xs with
  | nil => intro c k v h; exact h
  | cons x xs ih =>
    intro c k v h
    simp only [memoizeCalls]
    exact ih (memoizeCall f c x).2.1 k v (memoizeCall_mono f c x k v h)

theorem fibCached_mono (i : Nat) : ∀ (c : List (Nat × Nat)) (k v : Nat),
    clookup c k = some v → clookup (fibCached i c).2 k = some v := by
  induction i using Nat.strong_induction_on with
  | _ i ih =>
    intro c k v h
    cases hcl : clookup c i with
    | some w => rw [fibCached_hit i c w hcl]; exact h
    | none =>
      match i with
      | 0 => rw [fibCached_base0 c hcl]; exact h
      | 1 => rw [fibCached_base1 c hcl]; exact h
      | n + 2 =>
        rw [fibCached_rec n c hcl]
        have h1 := ih (n + 1) (by omega) c k v h
        have h2 := ih n (by omega) (fibCached (n + 1) c).2 k v h1
        have hne : (n + 2) ≠ k := by
          intro he; rw [he, h] at hcl; exact Option.noConfusion hcl
        simpa [clookup_cinsert_ne _ _ _ _ hne] using h2

theorem memoFib_mono (i : Nat) : ∀ (c : List (Nat × Nat)) (k v : Nat),
    clookup c k = some v → clookup (memoFib i c).2.1 k = some v := by
  induction i using Nat.strong_induction_on with
  | _ i ih =>
    intro c k v h
    cases hcl : clookup c i with
    | some w => rw [memoFib_hit i c w hcl]; exact h
    | none =>
      have hne : i ≠ k := by
        intro he; rw [he, h] at hcl; exact Option.noConfusion hcl
      match i, hne with
      | 0, hne =>
        rw [memoFib_base0 c hcl]
        simpa [clookup_cinsert_ne _ _ _ _ hne] using h
      | 1, hne =>
        rw [memoFib_base1 c hcl]
        simpa [clookup_cinsert_ne _ _ _ _ hne] using h
      | n + 2, hne =>
        rw [memoFib_rec n c hcl]
        have h1 := ih (n + 1) (by omega) c k v h
        have h2 := ih n (by omega) (memoFib (n + 1) c).2.1 k v h1
        simpa [clookup_cinsert_ne _ _ _ _ hne] using h2

/-! ### Key discrimination for positional and keyword arguments -/

instance : IsTotal (String × Nat) kwLe where
  total p q := by
    unfold kwLe
    rcases lt_trichotomy p.1 q.1 with h | h | h
    · exact Or.inl (Or.inl h)
    · rcases Nat.le_total p.2 q.2 with hv | hv
      · exact Or.inl (Or.inr ⟨h, hv⟩)
      · exact Or.inr (Or.inr ⟨h.symm, hv⟩)
    · exact Or.inr (Or.inl h)

instance : IsTrans (String × Nat) kwLe where
  trans p q r hpq hqr := by
    unfold kwLe at hpq hqr ⊢
    rcases hpq with h1 | ⟨e1, v1⟩
    · rcases hqr with h2 | ⟨e2, v2⟩
      · exact Or.inl (h1.trans h2)
      · exact Or.inl (e2 ▸ h1)
    · rcases hqr with h2 | ⟨e2, v2⟩
      · exact Or.inl (e1 ▸ h2)
      · exact Or.inr ⟨e1.trans e2, v1.trans v2⟩

instance : IsAntisymm (String × Nat) kwLe where
  antisymm p q hpq hqp := by
    unfold kwLe at hpq hqp
    rcases hpq with h1 | ⟨e1, v1⟩
    · rcases hqp with h2 | ⟨e2, v2⟩
      · exact absurd (h1.trans h2) (lt_irrefl _)
      · exact absurd h1 (by rw [e2]; exact lt_irrefl _)
    · rcases hqp with h2 | ⟨e2, v2⟩
      · exact absurd h2 (by rw [e1]; exact lt_irrefl _)
      · exact Prod.ext e1 (Nat.le_antisymm v1 v2)

/-- A concrete wrapped function of positional and keyword arguments, used
to exercise the key discrimination of the wrapper. -/
def argTotal (args : List Nat) (kwargs : List (String × Nat)) : Nat :=
  args.sum + (kwargs.map Prod.snd).sum

/-- C4: Key discrimination — two calls share a cache key exactly when their
positional arguments are equal (in order) and their keyword arguments are
equal as name/value collections, regardless of insertion order; concretely,
`g(1)` and `g(2)` populate two distinct entries, while `g(a=1, b=2)` and
`g(b=2, a=1)` populate the same single entry. -/
theorem memoize_key_discrimination :
    (∀ (args1 args2 : List Nat) (kw1 kw2 : List (String × Nat)),
      makeKey args1 kw1 = makeKey args2 kw2 ↔
        args1 = args2 ∧ kw1.Perm kw2) ∧
    makeKey [1] [] ≠ makeKey [2] [] ∧
    (memoizeCallKW argTotal (memoizeCallKW argTotal [] [1] []).2.1
        [2] []).2.1.length = 2 ∧
    makeKey [] [("a", 1), ("b", 2)] = makeKey [] [("b", 2), ("a", 1)] ∧
    (memoizeCallKW argTotal (memoizeCallKW argTotal [] []
        [("a", 1), ("b", 2)]).2.1 [] [("b", 2), ("a", 1)]).2.1.length = 1 ∧
    (memoizeCallKW argTotal (memoizeCallKW argTotal [] []
        [("a", 1), ("b", 2)]).2.1 [] [("b", 2), ("a", 1)]).2.2 = 0 := by
  refine ⟨fun args1 args2 kw1 kw2 => ?_, by decide, by decide, ?_, ?_, ?_⟩
  · constructor
    · intro h
      rw [makeKey, makeKey, Prod.mk.injEq] at h
      refine ⟨h.1, ?_⟩
      exact ((List.perm_insertionSort kwLe kw1).symm.trans
        (h.2 ▸ List.perm_insertionSort kwLe kw2))
    · rintro ⟨ha, hp⟩
      rw [makeKey, makeKey, ha]
      have hperm : List.Perm (List.insertionSort kwLe kw1)
          (List.insertionSort kwLe kw2) :=
        (List.perm_insertionSort kwLe kw1).trans
          (hp.trans (List.perm_insertionSort kwLe kw2).symm)
      rw [List.eq_of_perm_of_sorted hperm
        (List.sorted_insertionSort kwLe kw1)
        (List.sorted_insertionSort kwLe kw2)]
  · simp [makeKey, List.insertionSort, List.orderedInsert, kwLe]
    decide
  · simp [memoizeCallKW, makeKey, List.insertionSort, List.orderedInsert,
      kwLe, clookup, cinsert, argTotal]
    decide
  · simp [memoizeCallKW, makeKey, List.insertionSort, List.orderedInsert,
      kwLe, clookup, cinsert, argTotal]
    decide

theorem memoFibDec_hit (i : Nat) (c : List (Nat × Nat)) (v : Nat)
    (h : clookup c i = some v) : memoFibDec i c = (v, c, 0) := by
  match i with
  | 0 => simp [memoFibDec, h]
  | 1 => simp [memoFibDec, h]
  | n + 2 => simp [memoFibDec, h]

theorem memoFibDec_base0 (c : List (Nat × Nat)) (h : clookup c 0 = none) :
    memoFibDec 0 c = (0, cinsert c 0 0, 1) := by
  simp [memoFibDec, h]

theorem memoFibDec_base1 (c : List (Nat × Nat)) (h : clookup c 1 = none) :
    memoFibDec 1 c = (1, cinsert c 1 1, 1) := by
  simp [memoFibDec, h]

theorem memoFibDec_rec (n : Nat) (c : List (Nat × Nat))
    (h : clookup c (n + 2) = none) :
    memoFibDec (n + 2) c =
      ((memoFibDec (n + 1) c).1 + (memoFibDec n (memoFibDec (n + 1) c).2.1).1,
        cinsert (memoFibDec n (memoFibDec (n + 1) c).2.1).2.1 (n + 2)
          ((memoFibDec (n + 1) c).1 + (memoFibDec n (memoFibDec (n + 1) c).2.1).1),
        1 + (memoFibDec (n + 1) c).2.2 +
          (memoFibDec n (memoFibDec (n + 1) c).2.1).2.2) := by
  rw [memoFibDec]
  simp [h]

/-- C7: Decorator / call-site equivalence — the decorator form of the
memoized `fib` and the call-site form `fib = memoize(fib, cache)` have
identical runtime behavior: for every input and every cache state they
return the same result, the same final cache, and the same invocation
count of the wrapped body. -/
theorem decorator_call_site_equivalence :
    ∀ (i : Nat) (c : List (Nat × Nat)), memoFibDec i c = memoFib i c := by
  intro i
  induction i using Nat.strong_induction_on with
  | _ i ih =>
    intro c
    cases hcl : clookup c i with
    | some w => rw [memoFibDec_hit i c w hcl, memoFib_hit i c w hcl]
    | none =>
      match i with
      | 0 => rw [memoFibDec_base0 c hcl, memoFib_base0 c hcl]
      | 1 => rw [memoFibDec_base1 c hcl, memoFib_base1 c hcl]
      | n + 2 =>
        rw [memoFibDec_rec n c hcl, memoFib_rec n c hcl,
          ih (n + 1) (by omega) c, ih n (by omega) (memoFib (n + 1) c).2.1]

/-! ### Counting invocations of the memoized fib body -/

@[simp] theorem ckeys_nil {κ ν : Type} : ckeys ([] : List (κ × ν)) = [] := rfl

@[simp] theorem ckeys_cinsert {κ ν : Type} (c : List (κ × ν)) (k : κ) (v : ν) :
    ckeys (cinsert c k v) = k :: ckeys c := rfl

/-- Every body invocation stores exactly one new entry: the cache grows by
exactly the number of invocations. -/
theorem memoFib_growth (i : Nat) : ∀ c : List (Nat × Nat),
    (memoFib i c).2.1.length = c.length + (memoFib i c).2.2 := by
  induction i using Nat.strong_induction_on with
  | _ i ih =>
    intro c
    cases hcl : clookup c i with
    | some w => rw [memoFib_hit i c w hcl]; simp
    | none =>
      match i with
      | 0 => rw [memoFib_base0 c hcl]; simp [cinsert]
      | 1 => rw [memoFib_base1 c hcl]; simp [cinsert]
      | n + 2 =>
        rw [memoFib_rec n c hcl]
        have h1 := ih (n + 1) (by omega) c
        have h2 := ih n (by omega) (memoFib (n + 1) c).2.1
        simp only [cinsert, List.length_cons]
        omega

/-- Every key the memoized fib ever stores is an old key or at most `i`. -/
theorem memoFib_domain (i : Nat) : ∀ (c : List (Nat × Nat)) (k : Nat),
    k ∈ ckeys (memoFib i c).2.1 → k ∈ ckeys c ∨ k ≤ i := by
  induction i using Nat.strong_induction_on with
  | _ i ih =>
    intro c k hk
    cases hcl : clookup c i with
    | some w => rw [memoFib_hit i c w hcl] at hk; exact Or.inl hk
    | none =>
      match i with
      | 0 =>
        rw [memoFib_base0 c hcl] at hk
        simp only [ckeys_cinsert, List.mem_cons] at hk
        rcases hk with hk | hk
        · omega
        · exact Or.inl hk
      | 1 =>
        rw [memoFib_base1 c hcl] at hk
        simp only [ckeys_cinsert, List.mem_cons] at hk
        rcases hk with hk | hk
        · omega
        · exact Or.inl hk
      | n + 2 =>
        rw [memoFib_rec n c hcl] at hk
        simp only [ckeys_cinsert, List.mem_cons] at hk
        rcases hk with hk | hk
        · omega
        · rcases ih n (by omega) (memoFib (n + 1) c).2.1 k hk with h | h
          · rcases ih (n + 1) (by omega) c k h with h' | h'
            · exact Or.inl h'
            · exact Or.inr (by omega)
          · exact Or.inr (by omega)

/-- The memoized fib never stores a key twice. -/
theorem memoFib_nodup (i : Nat) : ∀ c : List (Nat × Nat),
    (ckeys c).Nodup → (ckeys (memoFib i c).2.1).Nodup := by
  induction i using Nat.strong_induction_on with
  | _ i ih =>
    intro c hc
    cases hcl : clookup c i with
    | some w => rw [memoFib_hit i c w hcl]; exact hc
    | none =>
      have hnotin : i ∉ ckeys c := (clookup_eq_none_iff c i).mp hcl
      match i, hcl, hnotin with
      | 0, hcl, hnotin =>
        rw [memoFib_base0 c hcl]
        simpa using ⟨hnotin, hc⟩
      | 1, hcl, hnotin =>
        rw [memoFib_base1 c hcl]
        simpa using ⟨hnotin, hc⟩
      | n + 2, hcl, hnotin =>
        rw [memoFib_rec n c hcl]
        have hc1 := ih (n + 1) (by omega) c hc
        have hc2 := ih n (by omega) (memoFib (n + 1) c).2.1 hc1
        have hfresh : (n + 2) ∉ ckeys (memoFib n (memoFib (n + 1) c).2.1).2.1 := by
          intro hmem
          rcases memoFib_domain n (memoFib (n + 1) c).2.1 (n + 2) hmem with h | h
          · rcases memoFib_domain (n + 1) c (n + 2) h with h' | h'
            · exact hnotin h'
            · omega
          · omega
        simpa using ⟨hfresh, hc2⟩

/-- C5: Memoized Fibonacci — from an empty cache the memoized `fib` at
`10` returns `55`, with exactly `11` invocations of the underlying
recursive body; in general, from an empty cache `memoFib i` invokes the
body at most `i + 1` times (linear, not exponential). -/
theorem memoFib_linear_invocations :
    (memoFib 10 []).1 = 55 ∧ (memoFib 10 []).2.2 = 11 ∧
    ∀ i : Nat, (memoFib i []).2.2 ≤ i + 1 := by
  refine ⟨rfl, rfl, fun i => ?_⟩
  have hgrow := memoFib_growth i []
  simp only [List.length_nil, Nat.zero_add] at hgrow
  have hnodup := memoFib_nodup i [] (by simp)
  have hsub : ckeys (memoFib i []).2.1 ⊆ List.range (i + 1) := by
    intro k hk
    rcases memoFib_domain i [] k hk with h | h
    · simp at h
    · exact List.mem_range.mpr (by omega)
  have hlen : (ckeys (memoFib i []).2.1).length ≤ i + 1 := by
    have := (List.subperm_of_subset hnodup hsub).length_le
    simpa using this
  have hkeys : (ckeys (memoFib i []).2.1).length = (memoFib i []).2.1.length :=
    List.length_map _ _
  omega

/-! ### The module-level cache invariant of the manually cached `fib` -/

/-- The invariant of the notebook's module-level `cache`: every stored key
is at least `2` (the base cases return without storing) and every stored
value is the true Fibonacci number of its key. -/
def GoodCache (c : List (Nat × Nat)) : Prop :=
  ∀ k v, clookup c k = some v → 2 ≤ k ∧ v = fib_what k

theorem goodCache_nil : GoodCache [] := fun _ _ h => nomatch h

theorem fibCached_correct (i : Nat) : ∀ c : List (Nat × Nat), GoodCache c →
    (fibCached i c).1 = fib_what i ∧ GoodCache (fibCached i c).2 := by
  induction i using Nat.strong_induction_on with
  | _ i ih =>
    intro c hc
    cases hcl : clookup c i with
    | some w =>
      rw [fibCached_hit i c w hcl]
      exact ⟨(hc i w hcl).2, hc⟩
    | none =>
      match i with
      | 0 => rw [fibCached_base0 c hcl]; exact ⟨rfl, hc⟩
      | 1 => rw [fibCached_base1 c hcl]; exact ⟨rfl, hc⟩
      | n + 2 =>
        rw [fibCached_rec n c hcl]
        obtain ⟨hv1, hg1⟩ := ih (n + 1) (by omega) c hc
        obtain ⟨hv2, hg2⟩ := ih n (by omega) (fibCached (n + 1) c).2 hg1
        refine ⟨by rw [hv1, hv2, fib_what_add_two], ?_⟩
        intro k v hk
        rw [cinsert] at hk
        rcases eq_or_ne (n + 2) k with he | hne
        · rw [clookup_cons, if_pos he] at hk
          obtain rfl := Option.some.inj hk
          exact ⟨by omega, by rw [← he, hv1, hv2, fib_what_add_two]⟩
        · rw [clookup_cons, if_neg hne] at hk
          exact hg2 k v hk

theorem fibCachedCalls_correct : ∀ (js : List Nat) (c : List (Nat × Nat)),
    GoodCache c →
    (fibCachedCalls js c).1 = js.map fib_what ∧
    GoodCache (fibCachedCalls js c).2 := by
  intro js
  induction js with
  | nil => intro c hc; exact ⟨rfl, hc⟩
  | cons j js ih =>
    intro c hc
    obtain ⟨hv, hg⟩ := fibCached_correct j c hc
    obtain ⟨hv', hg'⟩ := ih (fibCached j c).2 hg
    simp only [fibCachedCalls, List.map_cons]
    exact ⟨by rw [hv, hv'], hg'⟩

/-- C10: Cache consistency of the manually cached `fib` — under the
invariant that every cached key is `≥ 2` with the true Fibonacci value
(which holds for the empty cache and is preserved by every call, hence by
any sequence of calls from the empty cache), every call returns the true
Fibonacci value of its input, and the invariant still holds afterwards. -/
theorem manual_cache_invariant :
    (∀ (i : Nat) (c : List (Nat × Nat)), GoodCache c →
      (fibCached i c).1 = fib_what i ∧ GoodCache (fibCached i c).2) ∧
    (∀ js : List Nat,
      (fibCachedCalls js []).1 = js.map fib_what ∧
      GoodCache (fibCachedCalls js []).2) :=
  ⟨fun i c hc => fibCached_correct i c hc,
   fun js => fibCachedCalls_correct js [] goodCache_nil⟩

/-- Witness for C10: a single call at `10` from the empty cache returns
the true Fibonacci value and re-establishes the invariant. -/
theorem manual_cache_invariant_witness :
    (fibCached 10 []).1 = fib_what 10 ∧ GoodCache (fibCached 10 []).2 :=
  manual_cache_invariant.1 10 [] (fun _ _ h => nomatch h)

/-- C6: Cache monotonicity — across any sequence of wrapper calls (of the
memoized wrapper, of the manually cached `fib`, or of the memoized
recursive `fib`), an entry present before a call is present with the same
value after it; no entry is ever removed or auto-evicted. -/
theorem cache_monotonicity {α β : Type} [DecidableEq α] :
    (∀ (f : α → Option β) (c : List (α × β)) (x k : α) (v : β),
      clookup c k = some v → clookup (memoizeCall f c x).2.1 k = some v) ∧
    (∀ (f : α → Option β) (xs : List α) (c : List (α × β)) (k : α) (v : β),
      clookup c k = some v → clookup (memoizeCalls f xs c).1 k = some v) ∧
    (∀ (i : Nat) (c : List (Nat × Nat)) (k v : Nat),
      clookup c k = some v → clookup (fibCached i c).2 k = some v) ∧
    (∀ (i : Nat) (c : List (Nat × Nat)) (k v : Nat),
      clookup c k = some v → clookup (memoFib i c).2.1 k = some v) :=
  ⟨memoizeCall_mono, fun f xs => memoizeCalls_mono f xs,
   fun i => fibCached_mono i, fun i => memoFib_mono i⟩

/-- Witness for C6: an entry `9 ↦ 81` survives a sequence of wrapper calls
and a full memoized-fib computation. -/
theorem cache_monotonicity_witness :
    clookup (memoizeCalls (fun n : Nat => some (n * n)) [1, 2, 1]
      (cinsert [] 9 81)).1 9 = some 81 ∧
    clookup (memoFib 6 (cinsert [] 9 81)).2.1 9 = some 81 :=
  ⟨(@cache_monotonicity Nat Nat inferInstance).2.1 (fun n : Nat => some (n * n))
      [1, 2, 1] (cinsert [] 9 81) 9 81 rfl,
   (@cache_monotonicity Nat Nat inferInstance).2.2.2 6 (cinsert [] 9 81) 9 81 rfl⟩
